import Mathlib

/-!
Verification of the i18n-sync conversion core: a shallow embedding of the
translation data model (`models.py`) and the format-conversion functions of
`sync.py` (escaping, placeholder conversion, locale mapping, writers),
together with theorems checking the specified properties.

Python `dict`s are modelled as insertion-ordered association lists
(`List (String × α)`); `d[k] = v` updates the value in place when `k` is
present (keeping its position) and appends otherwise, exactly as Python
dictionaries behave.
-/

set_option maxRecDepth 8000

namespace I18nSync

/-- Python `dict.get k` / `k in d`: first (and in well-formed data, only)
binding for `k`. -/
def alistGet {α : Type} : List (String × α) → String → Option α
  | [], _ => none
  | (k', v') :: rest, k => if k' = k then some v' else alistGet rest k

/-- Python `d[k] = v`: overwrite in place if present, else append. -/
def alistInsert {α : Type} : List (String × α) → String → α → List (String × α)
  | [], k, v => [(k, v)]
  | (k', v') :: rest, k, v =>
      if k' = k then (k', v) :: rest else (k', v') :: alistInsert rest k v

/-- In-place update of the value bound to `k` (Python mutation of `d[k]`). -/
def alistUpdate {α : Type} : List (String × α) → String → (α → α) → List (String × α)
  | [], _, _ => []
  | (k', v') :: rest, k, f =>
      if k' = k then (k', f v') :: rest else (k', v') :: alistUpdate rest k f

/-! ## Data model (`models.py`) -/

/-- Model of `TranslationKey`: language code → string value. -/
structure TranslationKey where
  translations : List (String × String)
  deriving DecidableEq

def TranslationKey.add_translation (tk : TranslationKey) (lang value : String) :
    TranslationKey :=
  ⟨alistInsert tk.translations lang value⟩

def TranslationKey.get_translation (tk : TranslationKey) (lang : String) : Option String :=
  alistGet tk.translations lang

/-- Model of `StringsSection`: a named group of keys. -/
structure StringsSection where
  name : String
  keys : List (String × TranslationKey)
  deriving DecidableEq

/-- Model of `StringsSection.add_key`: create the key if absent, then add the
translation (overwriting the value for an existing language). -/
def StringsSection.add_key (sec : StringsSection) (key lang value : String) :
    StringsSection :=
  ⟨sec.name, alistInsert sec.keys key
    (((alistGet sec.keys key).getD ⟨[]⟩).add_translation lang value)⟩

/-- Model of `TranslationsData`: section name → section. -/
structure TranslationsData where
  sections : List (String × StringsSection)
  deriving DecidableEq

/-- Model of `TranslationsData.add_section`: no-op when the name already exists. -/
def TranslationsData.add_section (td : TranslationsData) (name : String) :
    TranslationsData :=
  match alistGet td.sections name with
  | some _ => td
  | none => ⟨td.sections ++ [(name, ⟨name, []⟩)]⟩

/-! ## Format-specifier conversion (`_convert_format_specifiers`)

The regex is `%(?!\d+\$)(\.\d+)?(@|[dfiulxXoOeEgGsScCpPaAbBhHnN]|l[diu])`.
Its match at a given position is deterministic, so it is embedded as a
direct scanner over the character list. -/

/-- The specifier-letter character class of the regex. -/
def specLetters : List Char :=
  ['d', 'f', 'i', 'u', 'l', 'x', 'X', 'o', 'O', 'e', 'E', 'g', 'G', 's', 'S',
   'c', 'C', 'p', 'P', 'a', 'A', 'b', 'B', 'h', 'H', 'n', 'N']

/-- Split a maximal leading run of decimal digits from the input. -/
def takeDigits : List Char → List Char × List Char
  | [] => ([], [])
  | c :: rest =>
      if c.isDigit then ((c :: (takeDigits rest).1), (takeDigits rest).2)
      else ([], c :: rest)

/-- The negative lookahead `(?!\d+\$)`: one or more digits then `$`. -/
def isPositional (l : List Char) : Bool :=
  !(takeDigits l).1.isEmpty &&
    (match (takeDigits l).2 with | '$' :: _ => true | _ => false)

/-- Group 2 of the regex: `@`, one letter of the class, or `l[diu]` (the last
alternative is dead because `l` is already in the class; kept for fidelity). -/
def matchSpecType : List Char → Option (List Char × List Char)
  | [] => none
  | c :: rest =>
      if c = '@' then some (['@'], rest)
      else if c ∈ specLetters then some ([c], rest)
      else if c = 'l' then
        match rest with
        | d :: rest' => if d ∈ ['d', 'i', 'u'] then some (['l', d], rest') else none
        | [] => none
      else none

/-- Match the body of a specifier immediately after a `%`: returns
(precision characters, specifier characters, remaining input). -/
def matchSpec (l : List Char) : Option (List Char × List Char × List Char) :=
  if isPositional l then none
  else
    match l with
    | '.' :: rest =>
        if (takeDigits rest).1.isEmpty then none
        else
          match matchSpecType (takeDigits rest).2 with
          | some (t, rest') => some ('.' :: (takeDigits rest).1, t, rest')
          | none => none
    | _ =>
        match matchSpecType l with
        | some (t, rest') => some ([], t, rest')
        | none => none

/-- Model of `_ios_to_android_type`: `@` becomes `s`, everything else is kept. -/
def ios_to_android_type (t : List Char) : List Char :=
  if t = ['@'] then ['s'] else t

/-- Number of specifier matches in the input (`re.finditer` scan).  The fuel
argument dominates the input length; every step consumes at least one
character, so `l.length` fuel is always enough. -/
def countSpecsFuel : Nat → List Char → Nat
  | 0, _ => 0
  | _, [] => 0
  | fuel + 1, c :: rest =>
      if c = '%' then
        match matchSpec rest with
        | some (_, _, r) => countSpecsFuel fuel r + 1
        | none => countSpecsFuel fuel rest
      else countSpecsFuel fuel rest

def countSpecs (l : List Char) : Nat := countSpecsFuel l.length l

/-- The single-specifier rewrite (`re.sub` with `%{precision}{type}`). -/
def convertSingleFuel : Nat → List Char → List Char
  | 0, l => l
  | _, [] => []
  | fuel + 1, c :: rest =>
      if c = '%' then
        match matchSpec rest with
        | some (p, t, r) =>
            '%' :: (p ++ ios_to_android_type t) ++ convertSingleFuel fuel r
        | none => '%' :: convertSingleFuel fuel rest
      else c :: convertSingleFuel fuel rest

/-- The multi-specifier rewrite: the `i`-th match becomes
`%{i}${precision}{type}`. -/
def convertMultiFuel : Nat → List Char → Nat → List Char
  | 0, l, _ => l
  | _, [], _ => []
  | fuel + 1, c :: rest, i =>
      if c = '%' then
        match matchSpec rest with
        | some (p, t, r) =>
            ('%' :: (toString i).data) ++ '$' :: (p ++ ios_to_android_type t) ++
              convertMultiFuel fuel r (i + 1)
        | none => '%' :: convertMultiFuel fuel rest i
      else c :: convertMultiFuel fuel rest i

/-- Model of `_convert_format_specifiers`, on character lists. -/
def convert_format_specifiers (l : List Char) : List Char :=
  if countSpecs l = 0 then l
  else if countSpecs l = 1 then convertSingleFuel l.length l
  else convertMultiFuel l.length l 1

def convertFormatSpecifiersStr (s : String) : String :=
  ⟨convert_format_specifiers s.data⟩

/-! ## Escaping -/

/-- Python `str.replace` with a single-character pattern. -/
def replaceChar (c : Char) (rep : List Char) : List Char → List Char
  | [] => []
  | x :: rest =>
      if x = c then rep ++ replaceChar c rep rest else x :: replaceChar c rep rest

/-- Python `str.replace` with a two-character pattern (non-overlapping,
left to right). -/
def replace2 (a b : Char) (rep : List Char) : List Char → List Char
  | x :: y :: rest =>
      if x = a ∧ y = b then rep ++ replace2 a b rep rest
      else x :: replace2 a b rep (y :: rest)
  | l => l

/-- Model of `_escape_strings_value`: `\` → `\\` first, then `"` → `\"`. -/
def escape_strings_value (l : List Char) : List Char :=
  replaceChar '\"' ['\\', '\"'] (replaceChar '\\' ['\\', '\\'] l)

/-- Model of `_unescape_strings_value`: `\"` → `"` first, then `\\` → `\`. -/
def unescape_strings_value (l : List Char) : List Char :=
  replace2 '\\' '\\' ['\\'] (replace2 '\\' '\"' ['\"'] l)

def escapeStringsValueStr (s : String) : String := ⟨escape_strings_value s.data⟩

def unescapeStringsValueStr (s : String) : String := ⟨unescape_strings_value s.data⟩

/-- Model of `_escape_android_xml`: placeholder conversion, then the five ordered
replacements (`&`, `<`, `>`, `'`, `"`). -/
def escape_android_xml (l : List Char) : List Char :=
  replaceChar '\"' ['\\', '\"']
    (replaceChar '\'' ['\\', '\'']
      (replaceChar '>' ['&', 'g', 't', ';']
        (replaceChar '<' ['&', 'l', 't', ';']
          (replaceChar '&' ['&', 'a', 'm', 'p', ';']
            (convert_format_specifiers l)))))

def escapeAndroidXmlStr (s : String) : String := ⟨escape_android_xml s.data⟩

/-! ## String ordering

Python compares strings lexicographically by code point; `lexLe` embeds
that order directly (and computes in the kernel). -/

def lexLe : List Char → List Char → Bool
  | [], _ => true
  | _ :: _, [] => false
  | a :: as, b :: bs =>
      if a.toNat < b.toNat then true
      else if b.toNat < a.toNat then false
      else lexLe as bs

def strLe (a b : String) : Prop :=
  lexLe a.data b.data = true

instance : DecidableRel strLe := fun a b =>
  instDecidableEqBool (lexLe a.data b.data) true

theorem lexLe_total : ∀ a b : List Char, lexLe a b = true ∨ lexLe b a = true := by
  intro a
  induction a with
  | nil => intro b; left; rfl
  | cons x xs ih =>
      intro b
      cases b with
      | nil => right; rfl
      | cons y ys =>
          simp only [lexLe]
          rcases Nat.lt_trichotomy x.toNat y.toNat with h | h | h
          · left; simp [h]
          · have h2 : ¬ x.toNat < y.toNat := by omega
            have h3 : ¬ y.toNat < x.toNat := by omega
            simpa [h2, h3] using ih ys
          · right; simp [h]

theorem lexLe_trans : ∀ a b c : List Char,
    lexLe a b = true → lexLe b c = true → lexLe a c = true := by
  intro a
  induction a with
  | nil => intro b c _ _; rfl
  | cons x xs ih =>
      intro b c hab hbc
      cases b with
      | nil => simp [lexLe] at hab
      | cons y ys =>
          cases c with
          | nil => simp [lexLe] at hbc
          | cons z zs =>
              simp only [lexLe] at hab hbc ⊢
              rcases Nat.lt_trichotomy x.toNat y.toNat with h1 | h1 | h1
              · rcases Nat.lt_trichotomy y.toNat z.toNat with h2 | h2 | h2
                · simp [show x.toNat < z.toNat by omega]
                · simp [show x.toNat < z.toNat by omega]
                · simp [show ¬ y.toNat < z.toNat by omega, h2] at hbc
              · rcases Nat.lt_trichotomy y.toNat z.toNat with h2 | h2 | h2
                · simp [show x.toNat < z.toNat by omega]
                · simp [show ¬ x.toNat < y.toNat by omega,
                        show ¬ y.toNat < x.toNat by omega] at hab
                  simp [show ¬ y.toNat < z.toNat by omega,
                        show ¬ z.toNat < y.toNat by omega] at hbc
                  simp [show ¬ x.toNat < z.toNat by omega,
                        show ¬ z.toNat < x.toNat by omega]
                  exact ih ys zs hab hbc
                · simp [show ¬ y.toNat < z.toNat by omega, h2] at hbc
              · simp [show ¬ x.toNat < y.toNat by omega, h1] at hab

theorem lexLe_antisymm : ∀ a b : List Char,
    lexLe a b = true → lexLe b a = true → a = b := by
  intro a
  induction a with
  | nil =>
      intro b _ hba
      cases b with
      | nil => rfl
      | cons y ys => simp [lexLe] at hba
  | cons x xs ih =>
      intro b hab hba
      cases b with
      | nil => simp [lexLe] at hab
      | cons y ys =>
          simp only [lexLe] at hab hba
          have hxy : x.toNat = y.toNat := by
            by_cases h1 : x.toNat < y.toNat <;> by_cases h2 : y.toNat < x.toNat <;>
              simp_all <;> omega
          have hx : x = y := Char.ext (UInt32.ext hxy)
          subst hx
          simp [Nat.lt_irrefl] at hab hba
          exact congrArg (x :: ·) (ih ys hab hba)

instance : IsTotal String strLe :=
  ⟨fun a b => lexLe_total a.data b.data⟩

instance : IsTrans String strLe :=
  ⟨fun a b c => lexLe_trans a.data b.data c.data⟩

instance : IsAntisymm String strLe :=
  ⟨fun a b hab hba => by
    cases a; cases b
    exact congrArg String.mk (lexLe_antisymm _ _ hab hba)⟩

instance : IsRefl String strLe :=
  ⟨fun a => (lexLe_total a.data a.data).elim id id⟩

/-! ## YAML projection (`to_yaml_dict` / `from_yaml_dict`) -/

/-- Python `sorted` on strings (lexicographic by code point). -/
def sortedStr (l : List String) : List String :=
  List.insertionSort strLe l

/-- Language ordering of `to_yaml_dict`: `en` first when present, then the
remaining languages sorted alphabetically. -/
def enFirst (tr : List (String × String)) : List (String × String) :=
  (match alistGet tr "en" with
   | some v => [("en", v)]
   | none => []) ++
  ((sortedStr (tr.map Prod.fst)).filter (fun l => l ≠ "en")).map
    (fun l => (l, (alistGet tr l).getD ""))

abbrev YEntry := List (String × String)

abbrev YSection := List (String × YEntry)

abbrev YDict := List (String × YSection)

def TranslationsData.to_yaml_dict (td : TranslationsData) : YDict :=
  td.sections.map fun p => (p.1, p.2.keys.map fun q => (q.1, enFirst q.2.translations))

/-- Inner loop of `from_yaml_dict`: add every language binding of one key. -/
def sectionAddEntry (sec : StringsSection) (key : String) (e : YEntry) : StringsSection :=
  e.foldl (fun s r => s.add_key key r.1 r.2) sec

/-- Middle loop of `from_yaml_dict`: add every key of one section. -/
def sectionAddAll (sec : StringsSection) (sdata : YSection) : StringsSection :=
  sdata.foldl (fun s q => sectionAddEntry s q.1 q.2) sec

def TranslationsData.from_yaml_dict (d : YDict) : TranslationsData :=
  d.foldl
    (fun td p =>
      ⟨alistUpdate (td.add_section p.1).sections p.1 (fun sec => sectionAddAll sec p.2)⟩)
    ⟨[]⟩

/-! ## Locale mapping -/

/-- The table `IOS_TO_ANDROID_LANG` from `sync.py`. -/
def IOS_TO_ANDROID_LANG : List (String × String) :=
  [("zh-Hans", "zh-rCN"), ("zh-Hant", "zh-rTW"), ("zh-HK", "zh-rHK"),
   ("pt-BR", "pt-rBR"), ("pt-PT", "pt-rPT"),
   ("es-419", "b+es+419"), ("es-MX", "es-rMX"),
   ("en-AU", "en-rAU"), ("en-CA", "en-rCA"), ("en-GB", "en-rGB"), ("en-US", "en-rUS"),
   ("fr-CA", "fr-rCA"),
   ("sr-Latn", "b+sr+Latn"), ("sr-Latn-ME", "b+sr+Latn+ME"),
   ("he", "iw"), ("yi", "ji")]

/-- Resource folder for a language in `_write_android_strings`. -/
def android_folder_name (lang default_lang : String) : String :=
  if lang = default_lang then "values"
  else "values-" ++ ((alistGet IOS_TO_ANDROID_LANG lang).getD lang)

/-- Python `s.split("+")`. -/
def splitPlus : List Char → List (List Char)
  | [] => [[]]
  | c :: rest =>
      if c = '+' then [] :: splitPlus rest
      else
        match splitPlus rest with
        | g :: gs => (c :: g) :: gs
        | [] => [[c]]

/-- Python `"-".join(parts)`. -/
def joinDash : List (List Char) → List Char
  | [] => []
  | [g] => g
  | g :: gs => g ++ '-' :: joinDash gs

/-- Python `"-r" in s`. -/
def containsDashR : List Char → Bool
  | x :: y :: rest => (x = '-' && y = 'r') || containsDashR (y :: rest)
  | _ => false

/-- Model of `_ios_to_android_locale`: folder-style code to locale notation. -/
def ios_to_android_locale (ios_lang : String) : String :=
  match ((alistGet IOS_TO_ANDROID_LANG ios_lang).getD ios_lang).data with
  | 'b' :: '+' :: rest => ⟨joinDash (splitPlus rest)⟩
  | l => if containsDashR l then ⟨replace2 '-' 'r' ['-'] l⟩ else ⟨l⟩

/-- The locale list emitted by `_write_locales_config`: deduplicated,
sorted alphabetically. -/
def write_locales_config (languages : List String) : List String :=
  sortedStr ((languages.map ios_to_android_locale).dedup)

/-! ## Writers -/

/-- Body of `_write_strings_file`: the emitted (key, escaped value) pairs in
order, and the recorded missing-translation warnings (section, key, lang). -/
def write_strings_file (sec : StringsSection) (lang : String) :
    List (String × String) × List (String × String × String) :=
  (sortedStr (sec.keys.map Prod.fst)).foldr
    (fun k acc =>
      match ((alistGet sec.keys k).getD ⟨[]⟩).get_translation lang with
      | some v => ((k, escapeStringsValueStr v) :: acc.1, acc.2)
      | none => ((k, "") :: acc.1, (sec.name, k, lang) :: acc.2))
    ([], [])

/-- The dict `all_keys` of `_write_android_xml`: keys of all sections merged into one
flat dict, keeping only those with a value for `lang`. -/
def android_all_keys (td : TranslationsData) (lang : String) : List (String × String) :=
  td.sections.foldl
    (fun acc p =>
      p.2.keys.foldl
        (fun acc q =>
          match q.2.get_translation lang with
          | some v => alistInsert acc q.1 v
          | none => acc)
        acc)
    []

/-- The `<string>` entries of `_write_android_xml`, sorted alphabetically. -/
def android_string_entries (td : TranslationsData) (lang : String) :
    List (String × String) :=
  (sortedStr ((android_all_keys td lang).map Prod.fst)).map
    (fun k => (k, escapeAndroidXmlStr ((alistGet (android_all_keys td lang) k).getD "")))

/-- The Android writer records no missing-translation warnings. -/
def android_string_warnings (_td : TranslationsData) (_lang : String) :
    List (String × String × String) :=
  []

/-! ## Plurals -/

abbrev PluralForms := List (String × String)

/-- The fixed Android quantity order used by `_write_android_xml`. -/
def plural_categories : List String :=
  ["zero", "one", "two", "few", "many", "other"]

/-- The `<item>` entries of one `<plurals>` block. -/
def android_plural_items (forms : PluralForms) : List (String × String) :=
  (plural_categories.filter (fun q => (alistGet forms q).isSome)).map
    (fun q => (q, escapeAndroidXmlStr ((alistGet forms q).getD "")))

/-! ## `.strings` parser (`_parse_strings_file`)

The regex `"([^"]+)"\s*=\s*"((?:[^"\\]|\\.)*)";\s*(?://.*)?` is
deterministic at every position (neither the character class nor the
escape alternative can consume a quote, and the escape alternative is
forced at a backslash), so it is embedded as a direct scanner. -/

/-- Group 1, `([^"]+)"`: the characters before the next `"`, and the rest after it. -/
def scanUntilQuote : List Char → Option (List Char × List Char)
  | [] => none
  | c :: rest =>
      if c = '\"' then some ([], rest)
      else
        match scanUntilQuote rest with
        | some (k, r) => some (c :: k, r)
        | none => none

/-- ASCII whitespace of `\s` (the inputs considered here are ASCII). -/
def isSpace (c : Char) : Bool :=
  c = ' ' || c = '\t' || c = '\n' || c = '\r' || c = '\x0b' || c = '\x0c'

def dropSpaces : List Char → List Char
  | [] => []
  | c :: rest => if isSpace c then dropSpaces rest else c :: rest

/-- Group 2, `((?:[^"\\]|\\.)*)"`: raw value characters up to the closing quote;
`\\.` does not match a newline after the backslash. -/
def scanValue : List Char → Option (List Char × List Char)
  | [] => none
  | '\"' :: rest => some ([], rest)
  | '\\' :: d :: rest =>
      if d = '\n' then none
      else
        match scanValue rest with
        | some (v, r) => some ('\\' :: d :: v, r)
        | none => none
  | '\\' :: [] => none
  | c :: rest =>
      match scanValue rest with
      | some (v, r) => some (c :: v, r)
      | none => none

/-- The `.*` of the trailing comment: skip to (not over) the end of line. -/
def dropToEol : List Char → List Char
  | [] => []
  | c :: rest => if c = '\n' then c :: rest else dropToEol rest

/-- Trailing `\s*(?://.*)?` of the pattern. -/
def matchTail (l : List Char) : List Char :=
  match dropSpaces l with
  | '/' :: '/' :: rest => dropToEol rest
  | l1 => l1

/-- One attempt to match the full pair pattern at the current position:
returns ((key, raw value), rest after the match). -/
def matchPair : List Char → Option ((List Char × List Char) × List Char)
  | '\"' :: rest =>
      match scanUntilQuote rest with
      | some (k, r1) =>
          if k.isEmpty then none
          else
            match dropSpaces r1 with
            | '=' :: r3 =>
                match dropSpaces r3 with
                | '\"' :: r5 =>
                    match scanValue r5 with
                    | some (v, r6) =>
                        match r6 with
                        | ';' :: r7 => some ((k, v), matchTail r7)
                        | _ => none
                    | none => none
                | _ => none
            | _ => none
      | none => none
  | _ => none

/-- The `re.finditer` loop: scan left to right, resuming after each match.  A match
consumes at least one character, so `l.length` fuel is always enough. -/
def findPairsFuel : Nat → List Char → List (List Char × List Char)
  | 0, _ => []
  | _, [] => []
  | fuel + 1, c :: rest =>
      match matchPair (c :: rest) with
      | some (kv, r) => kv :: findPairsFuel fuel r
      | none => findPairsFuel fuel rest

/-- Model of `_parse_strings_file`: add every matched pair (unescaped) to the
section named `sectionName`. -/
def parse_strings_file (td : TranslationsData) (content : List Char)
    (lang sectionName : String) : TranslationsData :=
  ⟨alistUpdate (td.add_section sectionName).sections sectionName
    (fun sec =>
      (findPairsFuel content.length content).foldl
        (fun s kv => s.add_key ⟨kv.1⟩ lang (unescapeStringsValueStr ⟨kv.2⟩)) sec)⟩

/-! ## Well-formedness (the invariants Python `dict`s provide for free) -/

def TKWF (tk : TranslationKey) : Prop :=
  (tk.translations.map Prod.fst).Nodup

def SecWF (sec : StringsSection) : Prop :=
  (sec.keys.map Prod.fst).Nodup ∧ ∀ p ∈ sec.keys, TKWF p.2

def TDWF (td : TranslationsData) : Prop :=
  (td.sections.map Prod.fst).Nodup ∧ ∀ p ∈ td.sections, SecWF p.2

instance : DecidablePred TKWF := fun tk => by
  unfold TKWF; infer_instance

instance : DecidablePred SecWF := fun sec => by
  unfold SecWF; exact instDecidableAnd

instance : DecidablePred TDWF := fun td => by
  unfold TDWF; exact instDecidableAnd

/-! ## Lemmas about the replacement primitives -/

theorem replace2_cons_ne (a b : Char) (rep : List Char) (c : Char) (m : List Char)
    (hc : c ≠ a) : replace2 a b rep (c :: m) = c :: replace2 a b rep m := by
  cases m with
  | nil => rfl
  | cons y rest => simp [replace2, hc]

/-- After escaping, the output never starts with a bare quote. -/
theorem escape_head_ne_quote (l : List Char) (rest : List Char) :
    replaceChar '\"' ['\\', '\"'] (replaceChar '\\' ['\\', '\\'] l) ≠ '\"' :: rest := by
  cases l with
  | nil => simp [replaceChar]
  | cons c l' =>
      by_cases hc : c = '\\'
      · subst hc
        simp [replaceChar]
      · by_cases hq : c = '\"'
        · subst hq
          simp [replaceChar, hc]
        · simp [replaceChar, hc, hq]

/-- Unescaping the quotes recovers the backslash-doubled intermediate form. -/
theorem unescape_quotes_escape (l : List Char) :
    replace2 '\\' '\"' ['\"']
        (replaceChar '\"' ['\\', '\"'] (replaceChar '\\' ['\\', '\\'] l)) =
      replaceChar '\\' ['\\', '\\'] l := by
  induction l with
  | nil => rfl
  | cons c l' ih =>
      by_cases hc : c = '\\'
      · subst hc
        have hE1 : replaceChar '\\' ['\\', '\\'] ('\\' :: l') =
            '\\' :: '\\' :: replaceChar '\\' ['\\', '\\'] l' := by
          simp [replaceChar]
        have hE2 : replaceChar '\"' ['\\', '\"']
              ('\\' :: '\\' :: replaceChar '\\' ['\\', '\\'] l') =
            '\\' :: '\\' ::
              replaceChar '\"' ['\\', '\"'] (replaceChar '\\' ['\\', '\\'] l') := by
          simp [replaceChar]
        rw [hE1, hE2]
        have step1 : replace2 '\\' '\"' ['\"']
            ('\\' :: '\\' ::
              replaceChar '\"' ['\\', '\"'] (replaceChar '\\' ['\\', '\\'] l')) =
            '\\' :: replace2 '\\' '\"' ['\"']
              ('\\' :: replaceChar '\"' ['\\', '\"'] (replaceChar '\\' ['\\', '\\'] l')) := by
          simp [replace2]
        have step2 : replace2 '\\' '\"' ['\"']
            ('\\' :: replaceChar '\"' ['\\', '\"'] (replaceChar '\\' ['\\', '\\'] l')) =
            '\\' :: replace2 '\\' '\"' ['\"']
              (replaceChar '\"' ['\\', '\"'] (replaceChar '\\' ['\\', '\\'] l')) := by
          cases hm : replaceChar '\"' ['\\', '\"'] (replaceChar '\\' ['\\', '\\'] l') with
          | nil => rfl
          | cons d m' =>
              have hd : d ≠ '\"' := by
                intro h
                exact escape_head_ne_quote l' m' (by rw [hm, h])
              simp [replace2, hd]
        rw [step1, step2, ih]
      · by_cases hq : c = '\"'
        · subst hq
          have hE1 : replaceChar '\\' ['\\', '\\'] ('\"' :: l') =
              '\"' :: replaceChar '\\' ['\\', '\\'] l' := by
            simp [replaceChar]
          have hE2 : replaceChar '\"' ['\\', '\"']
                ('\"' :: replaceChar '\\' ['\\', '\\'] l') =
              '\\' :: '\"' ::
                replaceChar '\"' ['\\', '\"'] (replaceChar '\\' ['\\', '\\'] l') := by
            simp [replaceChar]
          rw [hE1, hE2]
          simp [replace2, ih]
        · have hE1 : replaceChar '\\' ['\\', '\\'] (c :: l') =
              c :: replaceChar '\\' ['\\', '\\'] l' := by
            simp [replaceChar, hc]
          have hE2 : replaceChar '\"' ['\\', '\"'] (c :: replaceChar '\\' ['\\', '\\'] l') =
              c :: replaceChar '\"' ['\\', '\"'] (replaceChar '\\' ['\\', '\\'] l') := by
            simp [replaceChar, hq]
          rw [hE1, hE2, replace2_cons_ne _ _ _ _ _ hc, ih]

/-! ## Association-list lemmas -/

theorem alistGet_isSome_iff {α : Type} (l : List (String × α)) (k : String) :
    (alistGet l k).isSome ↔ k ∈ l.map Prod.fst := by
  induction l with
  | nil => simp [alistGet]
  | cons p rest ih =>
      obtain ⟨k', v'⟩ := p
      by_cases h : k' = k
      · subst h; simp [alistGet]
      · simp [alistGet, h, ih, Ne.symm h]

theorem alistGet_eq_none_iff {α : Type} (l : List (String × α)) (k : String) :
    alistGet l k = none ↔ k ∉ l.map Prod.fst := by
  rw [← alistGet_isSome_iff]
  cases alistGet l k <;> simp

theorem alistGet_append_of_not_mem {α : Type} (l1 l2 : List (String × α)) (k : String)
    (h : k ∉ l1.map Prod.fst) : alistGet (l1 ++ l2) k = alistGet l2 k := by
  induction l1 with
  | nil => rfl
  | cons p rest ih =>
      obtain ⟨k', v'⟩ := p
      simp only [List.map_cons, List.mem_cons, not_or] at h
      simp [alistGet, Ne.symm h.1, ih h.2]

theorem alistGet_map_pair {α : Type} (f : String → α) (s : List String) (k : String) :
    alistGet (s.map fun x => (x, f x)) k = if k ∈ s then some (f k) else none := by
  induction s with
  | nil => simp [alistGet]
  | cons x xs ih =>
      by_cases h : x = k
      · subst h; simp [alistGet]
      · simp [alistGet, h, ih, Ne.symm h]

theorem alistInsert_of_not_mem {α : Type} (l : List (String × α)) (k : String) (v : α)
    (h : k ∉ l.map Prod.fst) : alistInsert l k v = l ++ [(k, v)] := by
  induction l with
  | nil => rfl
  | cons p rest ih =>
      obtain ⟨k', v'⟩ := p
      simp only [List.map_cons, List.mem_cons, not_or] at h
      simp [alistInsert, Ne.symm h.1, ih h.2]

theorem alistInsert_map_fst_of_mem {α : Type} (l : List (String × α)) (k : String) (v : α)
    (h : k ∈ l.map Prod.fst) : (alistInsert l k v).map Prod.fst = l.map Prod.fst := by
  induction l with
  | nil => simp at h
  | cons p rest ih =>
      obtain ⟨k', v'⟩ := p
      by_cases hk : k' = k
      · subst hk; simp [alistInsert]
      · simp only [List.map_cons, List.mem_cons, Ne.symm hk, false_or] at h
        simp [alistInsert, hk, ih h]

theorem alistGet_insert_self {α : Type} (l : List (String × α)) (k : String) (v : α) :
    alistGet (alistInsert l k v) k = some v := by
  induction l with
  | nil => simp [alistInsert, alistGet]
  | cons p rest ih =>
      obtain ⟨k', v'⟩ := p
      by_cases hk : k' = k
      · subst hk; simp [alistInsert, alistGet]
      · simp [alistInsert, alistGet, hk, ih]

theorem alistGet_insert_ne {α : Type} (l : List (String × α)) (k k' : String) (v : α)
    (h : k' ≠ k) : alistGet (alistInsert l k v) k' = alistGet l k' := by
  induction l with
  | nil => simp [alistInsert, alistGet, Ne.symm h]
  | cons p rest ih =>
      obtain ⟨k'', v''⟩ := p
      by_cases hk : k'' = k
      · subst hk; simp [alistInsert, alistGet, Ne.symm h]
      · simp only [alistInsert, if_neg hk]
        by_cases hk2 : k'' = k'
        · subst hk2; simp [alistGet]
        · simp [alistGet, hk2, ih]

theorem alistInsert_mem_fst_iff {α : Type} (l : List (String × α)) (k a : String) (v : α) :
    a ∈ (alistInsert l k v).map Prod.fst ↔ a = k ∨ a ∈ l.map Prod.fst := by
  by_cases h : k ∈ l.map Prod.fst
  · rw [alistInsert_map_fst_of_mem l k v h]
    constructor
    · exact Or.inr
    · rintro (rfl | ha)
      · exact h
      · exact ha
  · rw [alistInsert_of_not_mem l k v h]
    simp [or_comm]

theorem alistInsert_nodup {α : Type} (l : List (String × α)) (k : String) (v : α)
    (h : (l.map Prod.fst).Nodup) : ((alistInsert l k v).map Prod.fst).Nodup := by
  by_cases hm : k ∈ l.map Prod.fst
  · rwa [alistInsert_map_fst_of_mem l k v hm]
  · rw [alistInsert_of_not_mem l k v hm]
    simp only [List.map_append, List.map_cons, List.map_nil]
    exact List.Nodup.append h (List.nodup_singleton k) (by simpa using hm)

/-! ## Sorting lemmas -/

theorem sortedStr_sorted (l : List String) : List.Sorted strLe (sortedStr l) :=
  List.sorted_insertionSort strLe l

theorem sortedStr_perm (l : List String) : List.Perm (sortedStr l) l :=
  List.perm_insertionSort strLe l

theorem sortedStr_mem (l : List String) (a : String) : a ∈ sortedStr l ↔ a ∈ l :=
  (sortedStr_perm l).mem_iff

theorem sortedStr_nodup (l : List String) (h : l.Nodup) : (sortedStr l).Nodup :=
  ((sortedStr_perm l).nodup_iff).mpr h

theorem sortedStr_eq_of_sorted (l : List String) (h : List.Sorted strLe l) :
    sortedStr l = l :=
  List.eq_of_perm_of_sorted (sortedStr_perm l) (sortedStr_sorted l) h

/-! ## Lemmas about `enFirst` -/

theorem enFirst_map_fst (tr : List (String × String)) :
    (enFirst tr).map Prod.fst =
      (match alistGet tr "en" with | some _ => ["en"] | none => []) ++
        ((sortedStr (tr.map Prod.fst)).filter (fun l => l ≠ "en")) := by
  cases h : alistGet tr "en" <;>
    simp [enFirst, h, List.map_map, Function.comp_def]

theorem alistGet_enFirst_en (tr : List (String × String)) :
    alistGet (enFirst tr) "en" = alistGet tr "en" := by
  cases h : alistGet tr "en" with
  | none =>
      simp only [enFirst, h, List.nil_append]
      rw [alistGet_map_pair]
      simp
  | some v =>
      simp [enFirst, h, alistGet]

theorem alistGet_enFirst_ne (tr : List (String × String)) (l : String) (hl : l ≠ "en") :
    alistGet (enFirst tr) l =
      if l ∈ (sortedStr (tr.map Prod.fst)).filter (fun x => x ≠ "en") then
        some ((alistGet tr l).getD "")
      else none := by
  cases h : alistGet tr "en" with
  | none =>
      simp only [enFirst, h, List.nil_append]
      rw [alistGet_map_pair]
  | some v =>
      simp only [enFirst, h, List.singleton_append, alistGet, if_neg (Ne.symm hl)]
      rw [alistGet_map_pair]

theorem enFirst_filter_sorted (tr : List (String × String)) :
    List.Sorted strLe (((enFirst tr).map Prod.fst).filter (fun s => s ≠ "en")) := by
  rw [enFirst_map_fst]
  cases h : alistGet tr "en" <;>
    · simp only [List.filter_append]
      simp only [List.filter_filter]
      exact (sortedStr_sorted _).filter _

theorem enFirst_nodup (tr : List (String × String))
    (h : (tr.map Prod.fst).Nodup) : ((enFirst tr).map Prod.fst).Nodup := by
  rw [enFirst_map_fst]
  cases hg : alistGet tr "en" with
  | none =>
      simpa using (sortedStr_nodup _ h).filter _
  | some v =>
      simp only [List.singleton_append, List.nodup_cons]
      refine ⟨?_, (sortedStr_nodup _ h).filter _⟩
      simp

theorem enFirst_idem (tr : List (String × String))
    (h : (tr.map Prod.fst).Nodup) : enFirst (enFirst tr) = enFirst tr := by
  have hperm2 : List.Perm
      ((sortedStr ((enFirst tr).map Prod.fst)).filter (fun l => l ≠ "en"))
      ((sortedStr (tr.map Prod.fst)).filter (fun l => l ≠ "en")) := by
    have hperm := (sortedStr_perm ((enFirst tr).map Prod.fst)).filter
      (fun l => decide (l ≠ "en"))
    refine hperm.trans ?_
    rw [enFirst_map_fst]
    have hself : ((sortedStr (tr.map Prod.fst)).filter (fun l => l ≠ "en")).filter
        (fun l => decide (l ≠ "en")) =
        (sortedStr (tr.map Prod.fst)).filter (fun l => l ≠ "en") := by
      apply List.filter_eq_self.mpr
      intro a ha
      exact (List.mem_filter.mp ha).2
    cases hg : alistGet tr "en" <;>
      simpa [hself] using
        List.Perm.refl ((sortedStr (tr.map Prod.fst)).filter (fun l => l ≠ "en"))
  have hfilter : ((sortedStr ((enFirst tr).map Prod.fst)).filter (fun l => l ≠ "en")) =
      (sortedStr (tr.map Prod.fst)).filter (fun l => l ≠ "en") :=
    List.eq_of_perm_of_sorted hperm2 ((sortedStr_sorted _).filter _)
      ((sortedStr_sorted _).filter _)
  have hvals : ((sortedStr (tr.map Prod.fst)).filter (fun l => l ≠ "en")).map
      (fun l => (l, (alistGet (enFirst tr) l).getD "")) =
      ((sortedStr (tr.map Prod.fst)).filter (fun l => l ≠ "en")).map
        (fun l => (l, (alistGet tr l).getD "")) := by
    apply List.map_congr_left
    intro a ha
    have hne : a ≠ "en" := by
      have := (List.mem_filter.mp ha).2
      simpa using this
    rw [alistGet_enFirst_ne tr a hne, if_pos ha]
    simp
  conv_lhs => rw [enFirst]
  rw [alistGet_enFirst_en, hfilter, hvals, enFirst]

/-! ## Lemmas about rebuilding the model (`from_yaml_dict`) -/

theorem alistInsert_middle {α : Type} (pre post : List (String × α)) (k : String) (v w : α)
    (h : k ∉ pre.map Prod.fst) :
    alistInsert (pre ++ (k, w) :: post) k v = pre ++ (k, v) :: post := by
  induction pre with
  | nil => simp [alistInsert]
  | cons p rest ih =>
      obtain ⟨k', v'⟩ := p
      simp only [List.map_cons, List.mem_cons, not_or] at h
      simp [alistInsert, Ne.symm h.1, ih h.2]

theorem alistGet_middle {α : Type} (pre post : List (String × α)) (k : String) (w : α)
    (h : k ∉ pre.map Prod.fst) :
    alistGet (pre ++ (k, w) :: post) k = some w := by
  rw [alistGet_append_of_not_mem _ _ _ h]
  simp [alistGet]

theorem alistUpdate_middle {α : Type} (pre post : List (String × α)) (k : String)
    (f : α → α) (w : α) (h : k ∉ pre.map Prod.fst) :
    alistUpdate (pre ++ (k, w) :: post) k f = pre ++ (k, f w) :: post := by
  induction pre with
  | nil => simp [alistUpdate]
  | cons p rest ih =>
      obtain ⟨k', v'⟩ := p
      simp only [List.map_cons, List.mem_cons, not_or] at h
      simp [alistUpdate, Ne.symm h.1, ih h.2]

/-- Folding `add_translation` over languages not yet present appends them
in order. -/
theorem add_translation_fold_fresh (e : List (String × String)) :
    ∀ tk : TranslationKey,
      (∀ l ∈ e.map Prod.fst, l ∉ tk.translations.map Prod.fst) →
      (e.map Prod.fst).Nodup →
      e.foldl (fun t r => t.add_translation r.1 r.2) tk = ⟨tk.translations ++ e⟩ := by
  induction e with
  | nil => intro tk _ _; simp
  | cons r e' ih =>
      intro tk hfresh hnodup
      obtain ⟨l, v⟩ := r
      simp only [List.foldl_cons]
      have hl : l ∉ tk.translations.map Prod.fst := hfresh l (by simp)
      have step : tk.add_translation l v = ⟨tk.translations ++ [(l, v)]⟩ := by
        unfold TranslationKey.add_translation
        rw [alistInsert_of_not_mem _ _ _ hl]
      rw [step]
      rw [ih ⟨tk.translations ++ [(l, v)]⟩ ?fresh ?nodup]
      · simp
      case fresh =>
        intro l' hl'
        simp only [List.map_append, List.map_cons, List.map_nil, List.mem_append,
          List.mem_singleton, not_or]
        refine ⟨hfresh l' (by simp [hl']), ?_⟩
        simp only [List.map_cons, List.nodup_cons] at hnodup
        intro heq
        exact hnodup.1 (heq ▸ hl')
      case nodup =>
        simp only [List.map_cons, List.nodup_cons] at hnodup
        exact hnodup.2

/-- Folding `add_key` for a key already present (and absent from the prefix)
updates that key in place. -/
theorem sectionAddEntry_present (n key : String) (e : YEntry) :
    ∀ (pre post : List (String × TranslationKey)) (tk : TranslationKey),
      key ∉ pre.map Prod.fst →
      sectionAddEntry ⟨n, pre ++ (key, tk) :: post⟩ key e =
        ⟨n, pre ++ (key, e.foldl (fun t r => t.add_translation r.1 r.2) tk) :: post⟩ := by
  induction e with
  | nil => intro pre post tk _; rfl
  | cons r e' ih =>
      intro pre post tk hpre
      obtain ⟨l, v⟩ := r
      have h1 : (⟨n, pre ++ (key, tk) :: post⟩ : StringsSection).add_key key l v
          = ⟨n, pre ++ (key, tk.add_translation l v) :: post⟩ := by
        unfold StringsSection.add_key
        rw [alistGet_middle _ _ _ _ hpre]
        exact congrArg _ (alistInsert_middle _ _ _ _ _ hpre)
      unfold sectionAddEntry
      simp only [List.foldl_cons]
      have h2 : sectionAddEntry ⟨n, pre ++ (key, tk.add_translation l v) :: post⟩ key e' =
          ⟨n, pre ++ (key, e'.foldl (fun t r => t.add_translation r.1 r.2)
            (tk.add_translation l v)) :: post⟩ := ih pre post _ hpre
      unfold sectionAddEntry at h2
      rw [show ((⟨n, pre ++ (key, tk) :: post⟩ : StringsSection).add_key key l v)
          = ⟨n, pre ++ (key, tk.add_translation l v) :: post⟩ from h1, h2]

/-- Adding a fresh key with a non-empty, duplicate-free entry appends it. -/
theorem sectionAddEntry_fresh (n key : String) (e : YEntry)
    (keys : List (String × TranslationKey))
    (hkey : key ∉ keys.map Prod.fst) (hne : e ≠ []) (hnodup : (e.map Prod.fst).Nodup) :
    sectionAddEntry ⟨n, keys⟩ key e = ⟨n, keys ++ [(key, ⟨e⟩)]⟩ := by
  cases e with
  | nil => exact absurd rfl hne
  | cons r e' =>
      obtain ⟨l, v⟩ := r
      have h1 : (⟨n, keys⟩ : StringsSection).add_key key l v
          = ⟨n, keys ++ [(key, ⟨[(l, v)]⟩)]⟩ := by
        unfold StringsSection.add_key
        rw [(alistGet_eq_none_iff _ _).mpr hkey]
        exact congrArg _ (alistInsert_of_not_mem _ _ _ hkey)
      unfold sectionAddEntry
      simp only [List.foldl_cons]
      have h2 := sectionAddEntry_present n key e' keys [] ⟨[(l, v)]⟩ hkey
      unfold sectionAddEntry at h2
      rw [show ((⟨n, keys⟩ : StringsSection).add_key key l v)
          = ⟨n, keys ++ [(key, ⟨[(l, v)]⟩)]⟩ from h1, h2]
      have h3 : e'.foldl (fun t r => t.add_translation r.1 r.2)
          (⟨[(l, v)]⟩ : TranslationKey) = ⟨(l, v) :: e'⟩ := by
        simp only [List.map_cons, List.nodup_cons] at hnodup
        rw [add_translation_fold_fresh e' ⟨[(l, v)]⟩ ?fresh hnodup.2]
        · rfl
        case fresh =>
          intro l' hl'
          simp only [List.map_cons, List.map_nil, List.mem_singleton]
          intro heq
          exact hnodup.1 (heq ▸ hl')
      rw [h3]

/-- Rebuilding a whole section from fresh, well-formed data appends the keys
verbatim. -/
theorem sectionAddAll_fresh (n : String) (sdata : YSection) :
    ∀ keys : List (String × TranslationKey),
      (∀ q ∈ sdata, q.1 ∉ keys.map Prod.fst) →
      (sdata.map Prod.fst).Nodup →
      (∀ q ∈ sdata, q.2 ≠ [] ∧ (q.2.map Prod.fst).Nodup) →
      sectionAddAll ⟨n, keys⟩ sdata = ⟨n, keys ++ sdata.map (fun q => (q.1, ⟨q.2⟩))⟩ := by
  induction sdata with
  | nil => intro keys _ _ _; simp [sectionAddAll]
  | cons q sdata' ih =>
      intro keys hfresh hnodup hwf
      obtain ⟨k, e⟩ := q
      unfold sectionAddAll
      simp only [List.foldl_cons]
      rw [show sectionAddEntry ⟨n, keys⟩ k e = ⟨n, keys ++ [(k, ⟨e⟩)]⟩ from
        sectionAddEntry_fresh n k e keys (hfresh (k, e) (by simp))
          (hwf (k, e) (by simp)).1 (hwf (k, e) (by simp)).2]
      have ih2 := ih (keys ++ [(k, ⟨e⟩)]) ?fresh ?nodup ?wf
      case fresh =>
        intro q' hq'
        simp only [List.map_append, List.map_cons, List.map_nil, List.mem_append,
          List.mem_singleton, not_or]
        refine ⟨hfresh q' (by simp [hq']), ?_⟩
        simp only [List.map_cons, List.nodup_cons] at hnodup
        intro heq
        exact hnodup.1 (heq ▸ (List.mem_map_of_mem Prod.fst hq'))
      case nodup =>
        simp only [List.map_cons, List.nodup_cons] at hnodup
        exact hnodup.2
      case wf =>
        intro q' hq'
        exact hwf q' (by simp [hq'])
      unfold sectionAddAll at ih2
      rw [ih2]
      simp

/-- Applying `from_yaml_dict` to fresh, well-formed data builds the section list
verbatim (with every entry list kept as is). -/
theorem from_yaml_fold (d : YDict) :
    ∀ acc : List (String × StringsSection),
      (∀ p ∈ d, p.1 ∉ acc.map Prod.fst) →
      (d.map Prod.fst).Nodup →
      (∀ p ∈ d, (p.2.map Prod.fst).Nodup ∧
        ∀ q ∈ p.2, q.2 ≠ [] ∧ (q.2.map Prod.fst).Nodup) →
      d.foldl
        (fun td p =>
          (⟨alistUpdate (td.add_section p.1).sections p.1
            (fun sec => sectionAddAll sec p.2)⟩ : TranslationsData))
        (⟨acc⟩ : TranslationsData) =
      (⟨acc ++ d.map (fun p => (p.1, ⟨p.1, p.2.map (fun q => (q.1, ⟨q.2⟩))⟩))⟩ :
        TranslationsData) := by
  induction d with
  | nil => intro acc _ _ _; simp
  | cons p d' ih =>
      intro acc hfresh hnodup hwf
      obtain ⟨nm, sdata⟩ := p
      simp only [List.foldl_cons]
      have hadd : (⟨acc⟩ : TranslationsData).add_section nm =
          ⟨acc ++ [(nm, ⟨nm, []⟩)]⟩ := by
        unfold TranslationsData.add_section
        rw [(alistGet_eq_none_iff _ _).mpr (hfresh (nm, sdata) (by simp))]
      have hupd : alistUpdate (acc ++ [(nm, ⟨nm, []⟩)]) nm
          (fun sec => sectionAddAll sec sdata) =
          acc ++ [(nm, sectionAddAll ⟨nm, []⟩ sdata)] :=
        alistUpdate_middle acc [] nm _ _ (hfresh (nm, sdata) (by simp))
      have hall : sectionAddAll (⟨nm, []⟩ : StringsSection) sdata =
          ⟨nm, sdata.map (fun q => (q.1, ⟨q.2⟩))⟩ := by
        have := sectionAddAll_fresh nm sdata [] (by simp) (hwf (nm, sdata) (by simp)).1
          (fun q hq => (hwf (nm, sdata) (by simp)).2 q hq)
        simpa using this
      rw [hadd, hupd, hall]
      have ih2 := ih (acc ++ [(nm, ⟨nm, sdata.map (fun q => (q.1, ⟨q.2⟩))⟩)]) ?fresh ?nodup ?wf
      case fresh =>
        intro p' hp'
        simp only [List.map_append, List.map_cons, List.map_nil, List.mem_append,
          List.mem_singleton, not_or]
        refine ⟨hfresh p' (by simp [hp']), ?_⟩
        simp only [List.map_cons, List.nodup_cons] at hnodup
        intro heq
        exact hnodup.1 (heq ▸ (List.mem_map_of_mem Prod.fst hp'))
      case nodup =>
        simp only [List.map_cons, List.nodup_cons] at hnodup
        exact hnodup.2
      case wf =>
        intro p' hp'
        exact hwf p' (by simp [hp'])
      rw [ih2]
      simp

/-- A non-empty key serializes to a non-empty language list. -/
theorem enFirst_ne_nil (tr : List (String × String)) (h : tr ≠ []) :
    enFirst tr ≠ [] := by
  intro hnil
  have h1 := congrArg (List.map Prod.fst) hnil
  rw [enFirst_map_fst] at h1
  cases hg : alistGet tr "en" with
  | some v => rw [hg] at h1; simp at h1
  | none =>
      rw [hg] at h1
      simp only [List.nil_append, List.map_nil] at h1
      obtain ⟨⟨l0, v0⟩, hmem⟩ := List.exists_mem_of_ne_nil tr h
      have hl0 : l0 ∈ sortedStr (tr.map Prod.fst) := by
        rw [sortedStr_mem]
        exact List.mem_map_of_mem Prod.fst hmem
      have := List.filter_eq_nil_iff.mp h1 l0 hl0
      simp at this
      have hen : "en" ∈ tr.map Prod.fst := this ▸ List.mem_map_of_mem Prod.fst hmem
      exact (alistGet_eq_none_iff _ _).mp hg hen

/-! ## Further structural lemmas -/

theorem enFirst_others_fst_ne (tr : List (String × String))
    (p : String × String)
    (hp : p ∈ ((sortedStr (tr.map Prod.fst)).filter (fun l => l ≠ "en")).map
      (fun l => (l, (alistGet tr l).getD ""))) : p.1 ≠ "en" := by
  obtain ⟨l, hl, rfl⟩ := List.mem_map.mp hp
  simpa using (List.mem_filter.mp hl).2

/-- If an `en` binding appears in the serialized language list, it is the
first element. -/
theorem enFirst_head_en (tr : List (String × String)) (v : String)
    (h : ("en", v) ∈ enFirst tr) : (enFirst tr).head? = some ("en", v) := by
  cases hg : alistGet tr "en" with
  | some w =>
      unfold enFirst at h ⊢
      rw [hg] at h ⊢
      simp only [List.singleton_append, List.mem_cons] at h
      rcases h with h | h
      · simp only [Prod.mk.injEq] at h
        rw [h.2]
        rfl
      · exact absurd rfl (enFirst_others_fst_ne tr ("en", v) h)
  | none =>
      unfold enFirst at h
      rw [hg] at h
      simp only [List.nil_append] at h
      exact absurd rfl (enFirst_others_fst_ne tr ("en", v) h)

theorem alistGet_mem {α : Type} (l : List (String × α)) (k : String) (v : α)
    (h : alistGet l k = some v) : (k, v) ∈ l := by
  induction l with
  | nil => simp [alistGet] at h
  | cons p rest ih =>
      obtain ⟨k', v'⟩ := p
      by_cases hk : k' = k
      · subst hk
        simp only [alistGet, if_true, eq_self_iff_true] at h
        simp only [Option.some.injEq] at h
        simp [h]
      · simp only [alistGet, if_neg hk] at h
        simp [ih h]

theorem mem_alistInsert {α : Type} (l : List (String × α)) (k : String) (v : α)
    (p : String × α) (hp : p ∈ alistInsert l k v) : p = (k, v) ∨ p ∈ l := by
  induction l with
  | nil => simpa [alistInsert] using hp
  | cons q rest ih =>
      obtain ⟨k', v'⟩ := q
      by_cases hk : k' = k
      · subst hk
        simp [alistInsert] at hp
        rcases hp with h | h
        · exact Or.inl (by simp [h])
        · exact Or.inr (List.mem_cons_of_mem _ h)
      · rw [show alistInsert ((k', v') :: rest) k v = (k', v') :: alistInsert rest k v by
          simp [alistInsert, hk]] at hp
        rcases List.mem_cons.mp hp with h | h
        · exact Or.inr (by simp [h])
        · rcases ih h with h2 | h2
          · exact Or.inl h2
          · exact Or.inr (List.mem_cons_of_mem _ h2)

/-- The body of `_write_strings_file`, described pointwise: one entry per
key in sorted order, and one warning per key missing the language. -/
theorem write_strings_file_eq (sec : StringsSection) (lang : String) :
    (write_strings_file sec lang).1 =
      (sortedStr (sec.keys.map Prod.fst)).map
        (fun k =>
          match ((alistGet sec.keys k).getD ⟨[]⟩).get_translation lang with
          | some v => (k, escapeStringsValueStr v)
          | none => (k, "")) ∧
    (write_strings_file sec lang).2 =
      ((sortedStr (sec.keys.map Prod.fst)).filter
        (fun k => (((alistGet sec.keys k).getD ⟨[]⟩).get_translation lang).isNone)).map
        (fun k => (sec.name, k, lang)) := by
  unfold write_strings_file
  induction sortedStr (sec.keys.map Prod.fst) with
  | nil => exact ⟨rfl, rfl⟩
  | cons k ks ih =>
      simp only [List.foldr_cons, List.map_cons, List.filter_cons]
      cases hv : ((alistGet sec.keys k).getD ⟨[]⟩).get_translation lang with
      | some v => exact ⟨by simp [hv, ih.1], by simp [hv, ih.2]⟩
      | none => exact ⟨by simp [hv, ih.1], by simp [hv, ih.2]⟩

/-- Membership in the merged Android key dict, inner loop. -/
theorem android_keys_inner_mem (lang : String)
    (keys : List (String × TranslationKey)) :
    ∀ (acc : List (String × String)) (a : String),
      (a ∈ (keys.foldl
        (fun acc q =>
          match q.2.get_translation lang with
          | some v => alistInsert acc q.1 v
          | none => acc) acc).map Prod.fst ↔
      a ∈ acc.map Prod.fst ∨
        ∃ tk : TranslationKey, (a, tk) ∈ keys ∧ (tk.get_translation lang).isSome) := by
  induction keys with
  | nil => intro acc a; simp
  | cons q rest ih =>
      intro acc a
      obtain ⟨k, tk⟩ := q
      simp only [List.foldl_cons]
      cases hv : tk.get_translation lang with
      | some v =>
          rw [ih (alistInsert acc k v) a]
          rw [alistInsert_mem_fst_iff]
          constructor
          · rintro ((rfl | h) | ⟨tk', htk', hs⟩)
            · exact Or.inr ⟨tk, by simp, by simp [hv]⟩
            · exact Or.inl h
            · exact Or.inr ⟨tk', by simp [htk'], hs⟩
          · rintro (h | ⟨tk', htk', hs⟩)
            · exact Or.inl (Or.inr h)
            · rcases List.mem_cons.mp htk' with h2 | h2
              · exact Or.inl (Or.inl (by simp at h2; exact h2.1))
              · exact Or.inr ⟨tk', h2, hs⟩
      | none =>
          rw [ih acc a]
          constructor
          · rintro (h | ⟨tk', htk', hs⟩)
            · exact Or.inl h
            · exact Or.inr ⟨tk', List.mem_cons_of_mem _ htk', hs⟩
          · rintro (h | ⟨tk', htk', hs⟩)
            · exact Or.inl h
            · rcases List.mem_cons.mp htk' with h2 | h2
              · obtain ⟨h3, h4⟩ := Prod.mk.injEq .. ▸ h2
                subst h3; subst h4
                rw [hv] at hs
                simp at hs
              · exact Or.inr ⟨tk', h2, hs⟩

/-- Membership in the merged Android key dict. -/
theorem android_all_keys_mem (td : TranslationsData) (lang a : String) :
    a ∈ (android_all_keys td lang).map Prod.fst ↔
      ∃ p ∈ td.sections, ∃ tk : TranslationKey,
        (a, tk) ∈ p.2.keys ∧ (tk.get_translation lang).isSome := by
  unfold android_all_keys
  have haux : ∀ (secs : List (String × StringsSection)) (acc : List (String × String)),
      a ∈ (secs.foldl
        (fun acc p =>
          p.2.keys.foldl
            (fun acc q =>
              match q.2.get_translation lang with
              | some v => alistInsert acc q.1 v
              | none => acc) acc) acc).map Prod.fst ↔
      a ∈ acc.map Prod.fst ∨
        ∃ p ∈ secs, ∃ tk : TranslationKey,
          (a, tk) ∈ p.2.keys ∧ (tk.get_translation lang).isSome := by
    intro secs
    induction secs with
    | nil => intro acc; simp
    | cons p rest ih =>
        intro acc
        simp only [List.foldl_cons]
        rw [ih, android_keys_inner_mem lang p.2.keys acc a]
        constructor
        · rintro ((h | ⟨tk, htk, hs⟩) | ⟨p', hp', htk⟩)
          · exact Or.inl h
          · exact Or.inr ⟨p, by simp, tk, htk, hs⟩
          · exact Or.inr ⟨p', List.mem_cons_of_mem _ hp', htk⟩
        · rintro (h | ⟨p', hp', tk, htk, hs⟩)
          · exact Or.inl (Or.inl h)
          · rcases List.mem_cons.mp hp' with h2 | h2
            · subst h2
              exact Or.inl (Or.inr ⟨tk, htk, hs⟩)
            · exact Or.inr ⟨p', h2, tk, htk, hs⟩
  rw [haux td.sections []]
  simp

theorem map_fst_pair_map {α β γ : Type} (l : List (α × β)) (f : α × β → γ) :
    (l.map (fun q => (q.1, f q))).map Prod.fst = l.map Prod.fst := by
  induction l with
  | nil => rfl
  | cons q l ih => simp [ih]

/-! ## Well-formedness preservation -/

theorem add_translation_TKWF (tk : TranslationKey) (lang v : String)
    (h : TKWF tk) : TKWF (tk.add_translation lang v) :=
  alistInsert_nodup _ _ _ h

theorem add_key_SecWF (sec : StringsSection) (key lang v : String)
    (h : SecWF sec) : SecWF (sec.add_key key lang v) := by
  constructor
  · exact alistInsert_nodup _ _ _ h.1
  · intro p hp
    rcases mem_alistInsert _ _ _ _ hp with h2 | h2
    · subst h2
      apply add_translation_TKWF
      cases hg : alistGet sec.keys key with
      | some tk0 => exact h.2 (key, tk0) (alistGet_mem _ _ _ hg)
      | none => exact List.nodup_nil
    · exact h.2 p h2

theorem add_section_TDWF (td : TranslationsData) (name : String)
    (h : TDWF td) : TDWF (td.add_section name) := by
  unfold TranslationsData.add_section
  cases hg : alistGet td.sections name with
  | some sec => exact h
  | none =>
      constructor
      · simp only [List.map_append, List.map_cons, List.map_nil]
        exact List.Nodup.append h.1 (List.nodup_singleton name)
          (by simpa using (alistGet_eq_none_iff _ _).mp hg)
      · intro p hp
        rcases List.mem_append.mp hp with h2 | h2
        · exact h.2 p h2
        · simp only [List.mem_singleton] at h2
          subst h2
          exact ⟨List.nodup_nil, by intro q hq; simp at hq⟩

/-- Halving the doubled backslashes recovers the original. -/
theorem unescape_backslashes_escape (l : List Char) :
    replace2 '\\' '\\' ['\\'] (replaceChar '\\' ['\\', '\\'] l) = l := by
  induction l with
  | nil => rfl
  | cons c l' ih =>
      by_cases hc : c = '\\'
      · subst hc
        simp only [replaceChar, if_pos rfl, List.cons_append, List.nil_append]
        simp [replace2, ih]
      · simp only [replaceChar, if_neg hc]
        rw [replace2_cons_ne _ _ _ _ _ hc, ih]

theorem map_fst_key_map {α β : Type} (l : List α) (f : α → β) :
    (l.map (fun k => (k, f k))).map Prod.fst = l := by
  induction l with
  | nil => rfl
  | cons k l ih => simp [ih]

/-! # Claim theorems -/

/-- C1: `_convert_format_specifiers` converts a single non-positional
specifier letter-only (`"%@ files"` → `"%s files"`), rewrites two or more
specifiers with 1-based positional indices in order, preserving precision
(`"%d files of %d"` → `"%1$d files of %2$d"`, `"%d of %d (%.1f%%)"` →
`"%1$d of %2$d (%3$.1f%%)"`), leaves already-positional specifiers
unchanged (`"%1$d of %2$d"`), and in general leaves any input with no
non-positional specifier match unchanged. -/
theorem c1_placeholder_conversion :
    convertFormatSpecifiersStr "%@ files" = "%s files" ∧
    convertFormatSpecifiersStr "%d files of %d" = "%1$d files of %2$d" ∧
    convertFormatSpecifiersStr "%1$d of %2$d" = "%1$d of %2$d" ∧
    convertFormatSpecifiersStr "%d of %d (%.1f%%)" = "%1$d of %2$d (%3$.1f%%)" ∧
    ∀ l : List Char, countSpecs l = 0 → convert_format_specifiers l = l := by
  refine ⟨by decide, by decide, by decide, by decide, ?_⟩
  intro l h
  simp [convert_format_specifiers, h]

theorem c1_placeholder_conversion_witness :
    countSpecs ("%1$d of %2$d").data = 0 ∧
    convert_format_specifiers ("%1$d of %2$d").data = ("%1$d of %2$d").data :=
  ⟨by decide, c1_placeholder_conversion.2.2.2.2 _ (by decide)⟩

/-- C2 as stated is false: `to_yaml_dict` emits keys in insertion order,
not sorted alphabetically.  Parsing a file whose keys appear in the order
`b`, `a` serializes them in that same order, which is not sorted. -/
theorem c2_counterexample :
    (TranslationsData.to_yaml_dict
        (parse_strings_file ⟨[]⟩ ("\"b\" = \"1\";\n\"a\" = \"2\";").data "en"
          "Localizable")).map (fun p => p.2.map Prod.fst) = [["b", "a"]] ∧
    ¬ List.Sorted strLe ["b", "a"] :=
  ⟨by decide, by decide⟩

/-- C2 (amended): `to_yaml_dict` emits sections in insertion order and,
within each section, keys in insertion order (not sorted); within each key
the language `en` comes first when present and the remaining languages are
sorted alphabetically. -/
theorem c2_yaml_projection_order (td : TranslationsData) :
    (TranslationsData.to_yaml_dict td).map Prod.fst = td.sections.map Prod.fst ∧
    (TranslationsData.to_yaml_dict td).map (fun p => p.2.map Prod.fst) =
      td.sections.map (fun p => p.2.keys.map Prod.fst) ∧
    ∀ p ∈ TranslationsData.to_yaml_dict td, ∀ q ∈ p.2,
      List.Sorted strLe ((q.2.map Prod.fst).filter (fun s => s ≠ "en")) ∧
      ∀ v : String, ("en", v) ∈ q.2 → q.2.head? = some ("en", v) := by
  refine ⟨?_, ?_, ?_⟩
  · unfold TranslationsData.to_yaml_dict
    exact map_fst_pair_map _ _
  · unfold TranslationsData.to_yaml_dict
    rw [List.map_map]
    apply List.map_congr_left
    intro p _
    simp only [Function.comp_apply]
    exact map_fst_pair_map _ _
  · intro p hp q hq
    unfold TranslationsData.to_yaml_dict at hp
    obtain ⟨p0, _, rfl⟩ := List.mem_map.mp hp
    obtain ⟨q0, _, rfl⟩ := List.mem_map.mp hq
    exact ⟨enFirst_filter_sorted _, fun v hv => enFirst_head_en _ v hv⟩

theorem c2_yaml_projection_order_witness :
    ([("en", "y"), ("de", "z"), ("ru", "x")] : List (String × String)).head? =
      some ("en", "y") :=
  ((c2_yaml_projection_order
      ⟨[("L", ⟨"L", [("k", ⟨[("ru", "x"), ("en", "y"), ("de", "z")]⟩)]⟩)]⟩).2.2
    ("L", [("k", [("en", "y"), ("de", "z"), ("ru", "x")])]) (by decide)
    ("k", [("en", "y"), ("de", "z"), ("ru", "x")]) (by decide)).2 "y" (by decide)

/-- C3: `_escape_android_xml` applies the five replacements in order
(`&`, `<`, `>`, `'`, `"`) after placeholder conversion; the specified
input produces the specified output with no double-escaping of the
entities introduced by the later steps. -/
theorem c3_xml_escaping_order :
    escapeAndroidXmlStr "It's \"fun\" & <cool>" =
      "It\\'s \\\"fun\\\" &amp; &lt;cool&gt;" := by
  decide

/-- C4: for every string, unescaping the escaped form returns the original:
escape doubles backslashes first then escapes quotes, unescape restores
quotes first then halves backslashes. -/
theorem c4_escape_round_trip (s : String) :
    unescapeStringsValueStr (escapeStringsValueStr s) = s := by
  cases s with
  | mk data =>
      show (⟨unescape_strings_value (escape_strings_value data)⟩ : String) = ⟨data⟩
      refine congrArg String.mk ?_
      show replace2 '\\' '\\' ['\\']
          (replace2 '\\' '\"' ['\"']
            (replaceChar '\"' ['\\', '\"'] (replaceChar '\\' ['\\', '\\'] data))) = data
      rw [unescape_quotes_escape, unescape_backslashes_escape]

theorem c4_escape_round_trip_witness :
    unescapeStringsValueStr (escapeStringsValueStr "a\\\"b") = "a\\\"b" :=
  c4_escape_round_trip "a\\\"b"

/-- C5: for well-formed data (unique section names, unique keys, unique
languages, and no key with an empty language map — exactly what the Python
dicts guarantee for data this system builds), deserializing a produced
YAML document and re-serializing it is the identity. -/
theorem c5_yaml_round_trip (td : TranslationsData) (hwf : TDWF td)
    (hne : ∀ p ∈ td.sections, ∀ q ∈ p.2.keys, q.2.translations ≠ []) :
    TranslationsData.to_yaml_dict
        (TranslationsData.from_yaml_dict (TranslationsData.to_yaml_dict td)) =
      TranslationsData.to_yaml_dict td := by
  have hnames : ((TranslationsData.to_yaml_dict td).map Prod.fst).Nodup := by
    unfold TranslationsData.to_yaml_dict
    rw [map_fst_pair_map]
    exact hwf.1
  have hwfd : ∀ p ∈ TranslationsData.to_yaml_dict td,
      (p.2.map Prod.fst).Nodup ∧ ∀ q ∈ p.2, q.2 ≠ [] ∧ (q.2.map Prod.fst).Nodup := by
    intro p hp
    unfold TranslationsData.to_yaml_dict at hp
    obtain ⟨p0, hp0, rfl⟩ := List.mem_map.mp hp
    constructor
    · rw [map_fst_pair_map]
      exact (hwf.2 p0 hp0).1
    · intro q hq
      obtain ⟨q0, hq0, rfl⟩ := List.mem_map.mp hq
      exact ⟨enFirst_ne_nil _ (hne p0 hp0 q0 hq0),
        enFirst_nodup _ ((hwf.2 p0 hp0).2 q0 hq0)⟩
  have hshape := from_yaml_fold (TranslationsData.to_yaml_dict td) []
    (by intro p _; simp) hnames hwfd
  unfold TranslationsData.from_yaml_dict
  rw [hshape]
  simp only [List.nil_append]
  unfold TranslationsData.to_yaml_dict
  simp only [List.map_map]
  apply List.map_congr_left
  intro p hp
  simp only [Function.comp_apply]
  refine congrArg (fun x => (p.1, x)) ?_
  simp only [List.map_map]
  apply List.map_congr_left
  intro q hq
  simp only [Function.comp_apply]
  exact congrArg (fun x => (q.1, x)) (enFirst_idem _ ((hwf.2 p hp).2 q hq))

theorem c5_yaml_round_trip_witness :
    TDWF (⟨[("L", ⟨"L", [("k", ⟨[("ru", "x"), ("en", "y")]⟩)]⟩)]⟩ : TranslationsData) ∧
    (∀ p ∈ (⟨[("L", ⟨"L", [("k", ⟨[("ru", "x"), ("en", "y")]⟩)]⟩)]⟩ :
        TranslationsData).sections, ∀ q ∈ p.2.keys, q.2.translations ≠ []) ∧
    TranslationsData.to_yaml_dict (TranslationsData.from_yaml_dict
        (TranslationsData.to_yaml_dict
          ⟨[("L", ⟨"L", [("k", ⟨[("ru", "x"), ("en", "y")]⟩)]⟩)]⟩)) =
      TranslationsData.to_yaml_dict
        ⟨[("L", ⟨"L", [("k", ⟨[("ru", "x"), ("en", "y")]⟩)]⟩)]⟩ :=
  ⟨by decide, by decide, c5_yaml_round_trip _ (by decide) (by decide)⟩

/-- C6: the Android resource folder is `values` for the default language
and `values-` plus the translated code otherwise, with unmapped codes
passing through; the five specified examples hold with default `en`. -/
theorem c6_locale_folder_mapping :
    android_folder_name "en" "en" = "values" ∧
    android_folder_name "zh-Hans" "en" = "values-zh-rCN" ∧
    android_folder_name "pt-BR" "en" = "values-pt-rBR" ∧
    android_folder_name "es-419" "en" = "values-b+es+419" ∧
    android_folder_name "sr-Latn" "en" = "values-b+sr+Latn" ∧
    android_folder_name "nb" "en" = "values-nb" ∧
    (∀ default_lang : String, android_folder_name default_lang default_lang = "values") ∧
    (∀ lang default_lang : String, lang ≠ default_lang →
      android_folder_name lang default_lang =
        "values-" ++ ((alistGet IOS_TO_ANDROID_LANG lang).getD lang)) := by
  refine ⟨by decide, by decide, by decide, by decide, by decide, by decide, ?_, ?_⟩
  · intro d
    simp [android_folder_name]
  · intro lang d h
    simp [android_folder_name, h]

theorem c6_locale_folder_mapping_witness :
    ("nb" : String) ≠ "en" ∧
    android_folder_name "nb" "en" =
      "values-" ++ ((alistGet IOS_TO_ANDROID_LANG "nb").getD "nb") :=
  ⟨by decide, c6_locale_folder_mapping.2.2.2.2.2.2.2 "nb" "en" (by decide)⟩

/-- C7: `_ios_to_android_locale` maps `zh-Hans` to `zh-CN` and keeps
`sr-Latn`; the locale manifest is the deduplicated, alphabetically sorted
set of per-language locales. -/
theorem c7_locale_manifest (languages : List String) :
    ios_to_android_locale "zh-Hans" = "zh-CN" ∧
    ios_to_android_locale "sr-Latn" = "sr-Latn" ∧
    List.Sorted strLe (write_locales_config languages) ∧
    (write_locales_config languages).Nodup ∧
    ∀ loc : String, loc ∈ write_locales_config languages ↔
      ∃ lang ∈ languages, ios_to_android_locale lang = loc := by
  refine ⟨by decide, by decide, sortedStr_sorted _,
    sortedStr_nodup _ (List.nodup_dedup _), ?_⟩
  intro loc
  unfold write_locales_config
  rw [sortedStr_mem, List.mem_dedup, List.mem_map]

theorem c7_locale_manifest_witness :
    "zh-CN" ∈ write_locales_config ["zh-Hans", "en"] :=
  (((c7_locale_manifest ["zh-Hans", "en"]).2.2.2.2) "zh-CN").mpr
    ⟨"zh-Hans", by decide, by decide⟩

/-- C8: the string-table writer emits the escaped value for a present
translation and an empty-value entry plus a recorded warning for a missing
one, while the Android writer emits exactly the keys that have a value for
the language (merged across sections) and records no warnings. -/
theorem c8_missing_key_policy (sec : StringsSection) (td : TranslationsData)
    (lang key : String) (hkey : key ∈ sec.keys.map Prod.fst) :
    (∀ v : String,
      ((alistGet sec.keys key).getD ⟨[]⟩).get_translation lang = some v →
        (key, escapeStringsValueStr v) ∈ (write_strings_file sec lang).1 ∧
        (sec.name, key, lang) ∉ (write_strings_file sec lang).2) ∧
    (((alistGet sec.keys key).getD ⟨[]⟩).get_translation lang = none →
        (key, "") ∈ (write_strings_file sec lang).1 ∧
        (sec.name, key, lang) ∈ (write_strings_file sec lang).2) ∧
    (key ∈ (android_string_entries td lang).map Prod.fst ↔
      key ∈ (android_all_keys td lang).map Prod.fst) ∧
    (key ∈ (android_all_keys td lang).map Prod.fst ↔
      ∃ p ∈ td.sections, ∃ tk : TranslationKey,
        (key, tk) ∈ p.2.keys ∧ (tk.get_translation lang).isSome) ∧
    android_string_warnings td lang = [] := by
  have E := write_strings_file_eq sec lang
  refine ⟨?_, ?_, ?_, android_all_keys_mem td lang key, rfl⟩
  · intro v hv
    constructor
    · rw [E.1]
      apply List.mem_map.mpr
      refine ⟨key, (sortedStr_mem _ key).mpr hkey, ?_⟩
      rw [hv]
    · rw [E.2]
      intro hmem
      obtain ⟨k', hk', heq⟩ := List.mem_map.mp hmem
      have hkk : k' = key := by
        have := congrArg (fun t => t.2.1) heq
        simpa using this
      subst hkk
      have h2 := (List.mem_filter.mp hk').2
      rw [hv] at h2
      simp at h2
  · intro hv
    constructor
    · rw [E.1]
      apply List.mem_map.mpr
      refine ⟨key, (sortedStr_mem _ key).mpr hkey, ?_⟩
      rw [hv]
    · rw [E.2]
      apply List.mem_map.mpr
      refine ⟨key, List.mem_filter.mpr ⟨(sortedStr_mem _ key).mpr hkey, ?_⟩, rfl⟩
      rw [hv]
      rfl
  · unfold android_string_entries
    rw [map_fst_key_map]
    exact sortedStr_mem _ key

theorem c8_missing_key_policy_witness :
    ("save", "") ∈
      (write_strings_file ⟨"Localizable", [("save", ⟨[("en", "Save")]⟩)]⟩ "ru").1 ∧
    ("Localizable", "save", "ru") ∈
      (write_strings_file ⟨"Localizable", [("save", ⟨[("en", "Save")]⟩)]⟩ "ru").2 :=
  (c8_missing_key_policy ⟨"Localizable", [("save", ⟨[("en", "Save")]⟩)]⟩
    ⟨[]⟩ "ru" "save" (by decide)).2.1 (by decide)

/-- C9: a plural block lists exactly the categories present for the
language, in the fixed relative order zero, one, two, few, many, other,
with no item for an absent category. -/
theorem c9_android_plural_order (forms : PluralForms)
    (hsub : ∀ q ∈ forms.map Prod.fst, q ∈ plural_categories) :
    (android_plural_items forms).map Prod.fst =
      plural_categories.filter (fun q => q ∈ forms.map Prod.fst) ∧
    ∀ q : String, q ∈ (android_plural_items forms).map Prod.fst ↔
      q ∈ forms.map Prod.fst := by
  have hfst : (android_plural_items forms).map Prod.fst =
      plural_categories.filter (fun q => (alistGet forms q).isSome) := by
    unfold android_plural_items
    exact map_fst_key_map _ _
  have hpred : plural_categories.filter (fun q => (alistGet forms q).isSome) =
      plural_categories.filter (fun q => q ∈ forms.map Prod.fst) := by
    apply List.filter_congr
    intro q _
    by_cases hmem : q ∈ forms.map Prod.fst
    · simp [hmem, (alistGet_isSome_iff forms q).mpr hmem]
    · have h2 : ¬ (alistGet forms q).isSome = true :=
        fun hs => hmem ((alistGet_isSome_iff forms q).mp hs)
      simp [hmem]
      simpa using h2
  refine ⟨hfst.trans hpred, ?_⟩
  intro q
  rw [hfst, List.mem_filter]
  constructor
  · rintro ⟨_, h2⟩
    exact (alistGet_isSome_iff forms q).mp (by simpa using h2)
  · intro h
    exact ⟨hsub q h, by simpa using (alistGet_isSome_iff forms q).mpr h⟩

theorem c9_android_plural_order_witness :
    (∀ q ∈ ([("one", "x"), ("other", "y")] : PluralForms).map Prod.fst,
      q ∈ plural_categories) ∧
    (android_plural_items [("one", "x"), ("other", "y")]).map Prod.fst =
      plural_categories.filter
        (fun q => q ∈ ([("one", "x"), ("other", "y")] : PluralForms).map Prod.fst) ∧
    plural_categories.filter
        (fun q => q ∈ ([("one", "x"), ("other", "y")] : PluralForms).map Prod.fst) =
      ["one", "other"] :=
  ⟨by decide, (c9_android_plural_order _ (by decide)).1, by decide⟩

/-- C10: `add_section` on an existing name is the identity; `add_section`
and `add_key` preserve uniqueness of section names, key names and language
codes; `add_key` on an existing (key, language) pair overwrites the stored
value; parsing a file with a duplicated key records one entry holding the
last value. -/
theorem c10_uniqueness_invariants :
    (∀ (td : TranslationsData) (name : String),
      name ∈ td.sections.map Prod.fst → td.add_section name = td) ∧
    (∀ (td : TranslationsData) (name : String), TDWF td → TDWF (td.add_section name)) ∧
    (∀ (sec : StringsSection) (key lang v : String),
      SecWF sec → SecWF (sec.add_key key lang v)) ∧
    (∀ (sec : StringsSection) (key lang v : String),
      alistGet (sec.add_key key lang v).keys key =
        some (((alistGet sec.keys key).getD ⟨[]⟩).add_translation lang v) ∧
      (((alistGet sec.keys key).getD ⟨[]⟩).add_translation lang v).get_translation lang
        = some v) ∧
    (∀ (sec : StringsSection) (key lang v : String), key ∈ sec.keys.map Prod.fst →
      (sec.add_key key lang v).keys.map Prod.fst = sec.keys.map Prod.fst) ∧
    parse_strings_file ⟨[]⟩
        ("\"dup\" = \"first\";\n\"dup\" = \"second\";").data "en" "Localizable"
      = ⟨[("Localizable", ⟨"Localizable", [("dup", ⟨[("en", "second")]⟩)]⟩)]⟩ := by
  refine ⟨?_, ?_, ?_, ?_, ?_, by decide⟩
  · intro td name h
    unfold TranslationsData.add_section
    cases hg : alistGet td.sections name with
    | some s => rfl
    | none => exact absurd h ((alistGet_eq_none_iff _ _).mp hg)
  · exact add_section_TDWF
  · exact add_key_SecWF
  · intro sec key lang v
    constructor
    · unfold StringsSection.add_key
      exact alistGet_insert_self _ _ _
    · unfold TranslationKey.add_translation TranslationKey.get_translation
      exact alistGet_insert_self _ _ _
  · intro sec key lang v h
    unfold StringsSection.add_key
    exact alistInsert_map_fst_of_mem _ _ _ h

theorem c10_uniqueness_invariants_witness :
    (("a" : String) ∈
      ((⟨"L", [("a", ⟨[("en", "1")]⟩)]⟩ : StringsSection)).keys.map Prod.fst) ∧
    ((⟨"L", [("a", ⟨[("en", "1")]⟩)]⟩ : StringsSection).add_key "a" "en" "2").keys.map
        Prod.fst =
      ((⟨"L", [("a", ⟨[("en", "1")]⟩)]⟩ : StringsSection)).keys.map Prod.fst :=
  ⟨by decide, c10_uniqueness_invariants.2.2.2.2.1 _ "a" "en" "2" (by decide)⟩

end I18nSync
